import Mathlib

/-!
Verification of the expansion engine of `putput/generator.py`: range
expansion, group expansion, combo computation and utterance
materialisation with token handlers.  Python sequences are embedded as
Lean lists, dictionaries as association lists with first-match lookup,
and fixed-point recursions carry explicit fuel (`none` models a
recursion that never reaches its base case).
-/

namespace Putput

/-- Modelled from the spec: utterance-pattern tokens are strings, and the
external range-syntax recognizer / bounds parser (`RANGE_REGEX` and
`parse_range_token` of `putput.validator`, outside the verified source)
classifies each token as either an ordinary token or a range token with
parsed bounds (minimum-or-absent, maximum).  We embed that classification
in the token type itself. -/
inductive Tok where
  | plain (name : String)
  | range (lo : Option Nat) (hi : Nat)
deriving DecidableEq

/-- Modelled from the spec: whether a token matches the range syntax
(`re.match(RANGE_REGEX, token)`). -/
def matchesRange : Tok → Bool
  | Tok.range _ _ => true
  | Tok.plain _ => false

/-- Modelled from the spec: the external bounds parser `parse_range_token`,
returning (minimum-or-absent, maximum); never applied to ordinary tokens
by the engine. -/
def parse_range_token : Tok → Option Nat × Nat
  | Tok.range lo hi => (lo, hi)
  | Tok.plain _ => (none, 0)

/-- `_get_regex_match_index`: index of the first token of the utterance
pattern that matches the range syntax, if any. -/
def get_regex_match_index : List Tok → Option Nat
  | [] => none
  | t :: ts => if matchesRange t then some 0 else (get_regex_match_index ts).map (· + 1)

/-- `_any_patterns_match_regex`. -/
def any_patterns_match_regex (ps : List (List Tok)) : Bool :=
  ps.any (fun p => (get_regex_match_index p).isSome)

/-- Body of the `for utterance_pattern in utterance_patterns` loop of
`_handle_ranges`: the patterns contributed by one input pattern during a
single rewrite pass.  Python's slice assignment
`p[i-1 : i+1] = [previous_token] * v` is `take (i-1) ++ replicate v prev
++ drop (i+1)`, and `if match_index and match_index > 0` is the `0 < i`
test (`0` is falsy in Python). -/
def handle_ranges_pattern (p : List Tok) : List (List Tok) :=
  match get_regex_match_index p with
  | some i =>
    if 0 < i then
      match parse_range_token (p.getD i (Tok.plain "")) with
      | (some min_range, max_range) =>
        (List.range' min_range (max_range - min_range)).map
          (fun v => p.take (i - 1) ++ List.replicate v (p.getD (i - 1) (Tok.plain "")) ++ p.drop (i + 1))
      | (none, max_range) =>
        [p.take (i - 1) ++ List.replicate max_range (p.getD (i - 1) (Tok.plain "")) ++ p.drop (i + 1)]
    else [p]
  | none => [p]

/-- One full rewrite pass of `_handle_ranges` over the pattern sequence. -/
def handle_ranges_step (ps : List (List Tok)) : List (List Tok) :=
  ps.flatMap handle_ranges_pattern

/-- `_handle_ranges`: recursion to a fixed point, with explicit fuel;
`none` models the Python recursion failing to reach its base case. -/
def handle_ranges (fuel : Nat) (ps : List (List Tok)) : Option (List (List Tok)) :=
  if any_patterns_match_regex ps then
    match fuel with
    | 0 => none
    | f + 1 => handle_ranges f (handle_ranges_step ps)
  else some ps

/-! ## Group expansion (`_expand_groups`, `_expand_groups_recursive`) -/

/-- `GROUP`: a (group-name, span) pair; the default sentinel name is the
string `'None'` as in the source (`('None', 1)`). -/
abbrev Group := String × Nat

/-- The expanded group map of `_expand_groups`: group name to the
range-expanded sequence of token patterns substituted for it. -/
abbrev GroupMap := List (String × List (List Tok))

/-- The `token in expanded_group_map` membership test: range tokens are
never dictionary keys (group names are ordinary strings). -/
def isKeyTok (gmap : GroupMap) : Tok → Bool
  | Tok.plain name => (gmap.lookup name).isSome
  | Tok.range _ _ => false

/-- `_get_map_match_index`: index of the first token of the utterance
pattern that is a key of the expanded group map, if any. -/
def get_map_match_index (gmap : GroupMap) : List Tok → Option Nat
  | [] => none
  | t :: ts => if isKeyTok gmap t then some 0 else (get_map_match_index gmap ts).map (· + 1)

/-- `_any_pattern_token_in_group_map`. -/
def any_pattern_token_in_group_map (ps : List (List Tok)) (gmap : GroupMap) : Bool :=
  ps.any (fun p => (get_map_match_index gmap p).isSome)

/-- `_get_current_group_index`: the while loop in recursive form; instead
of accumulating `cur_sum` towards `token_index`, each consumed span is
subtracted from the remaining target.  (When the loop would run past the
end of `groups`, the Python code raises IndexError; that point is
totalised to return the number of entries consumed so far.) -/
def get_current_group_index : Nat → List Group → Nat
  | 0, _ => 0
  | _ + 1, [] => 0
  | t + 1, g :: gs => 1 + get_current_group_index (t + 1 - g.2) gs

/-- Body of the `for utterance_pattern, groups in zip(...)` loop of
`_expand_groups_recursive`: the (pattern, groups) pairs contributed by one
input pair during a single rewrite pass.  Slice assignments
`p[i : i+1] = group_pattern` and `groups[gi : gi+1] = [(token, len(gp))]`
are `take/++/drop` splices.  (The dictionary access
`expanded_group_map[token]` cannot fail because `i` indexes a token that
is a key; the unreachable arms return the pair unchanged.) -/
def expand_groups_pair (gmap : GroupMap) (p : List Tok) (gs : List Group) :
    List (List Tok × List Group) :=
  match get_map_match_index gmap p with
  | some i =>
    match p.getD i (Tok.plain "") with
    | Tok.plain name =>
      match gmap.lookup name with
      | some group_patterns =>
        let gi := get_current_group_index i gs
        group_patterns.map (fun gp =>
          (p.take i ++ gp ++ p.drop (i + 1),
           gs.take gi ++ [(name, gp.length)] ++ gs.drop (gi + 1)))
      | none => [(p, gs)]
    | Tok.range _ _ => [(p, gs)]
  | none => [(p, gs)]

/-- One full rewrite pass of `_expand_groups_recursive` over the parallel
pattern / groups sequences. -/
def expand_groups_once (gmap : GroupMap) (ps : List (List Tok)) (gss : List (List Group)) :
    List (List Tok) × List (List Group) :=
  let pairs := (ps.zip gss).flatMap (fun pr => expand_groups_pair gmap pr.1 pr.2)
  (pairs.map Prod.fst, pairs.map Prod.snd)

/-- `_expand_groups_recursive`: recursion to a fixed point, with explicit
fuel; `none` models the Python recursion failing to reach its base case. -/
def expand_groups_recursive (fuel : Nat) (gmap : GroupMap)
    (ps : List (List Tok)) (gss : List (List Group)) :
    Option (List (List Tok) × List (List Group)) :=
  if any_pattern_token_in_group_map ps gmap then
    match fuel with
    | 0 => none
    | f + 1 =>
      let st := expand_groups_once gmap ps gss
      expand_groups_recursive f gmap st.1 st.2
  else some (ps, gss)

/-- The default Group sequence `[('None', 1) for token in utterance_pattern]`. -/
def default_groups_of (p : List Tok) : List Group :=
  p.map (fun _ => ("None", 1))

/-- Maps each declared group pattern through `_handle_ranges([pattern])`,
failing if any of those recursions fails to terminate within the fuel. -/
def expand_group_map (fuel : Nat) : List (String × List Tok) → Option GroupMap
  | [] => some []
  | (name, pat) :: rest =>
    match handle_ranges fuel [pat], expand_group_map fuel rest with
    | some pats, some rest' => some ((name, pats) :: rest')
    | _, _ => none

/-- `_expand_groups`: the pattern definition is represented by its
optional `groups` declaration (group name to raw pattern). -/
def expand_groups (fuel : Nat) (groups_decl : Option (List (String × List Tok)))
    (utterance_patterns : List (List Tok)) :
    Option (List (List Tok) × List (List Group)) :=
  let defaults := utterance_patterns.map default_groups_of
  match groups_decl with
  | none => some (utterance_patterns, defaults)
  | some decl =>
    match expand_group_map fuel decl with
    | some gmap => expand_groups_recursive fuel gmap utterance_patterns defaults
    | none => none

/-! ## The span-sum invariant of group expansion (C1) -/

/-- `sum(span for _, span in groups)`. -/
def sumSpans (gs : List Group) : Nat :=
  (gs.map Prod.snd).sum

/-- Side conditions under which the span-sum invariant is preserved:
every group's expansion patterns are non-empty and contain no further
group names. -/
def wellFormedGroupMap (gmap : GroupMap) : Bool :=
  gmap.all (fun e => e.2.all (fun gp =>
    decide (1 ≤ gp.length) && gp.all (fun t => !isKeyTok gmap t)))

/-- The inductive decomposition tying a pattern to its Group sequence:
the pattern splits into consecutive blocks, one per Group entry, each
block as long as the entry's span; spans are at least 1, and a block
introduced by group substitution contains no group name. -/
inductive Blocks (gmap : GroupMap) : List Tok → List Group → Prop where
  | nil : Blocks gmap [] []
  | single (t : Tok) (name : String) (p : List Tok) (gs : List Group) :
      Blocks gmap p gs → Blocks gmap (t :: p) ((name, 1) :: gs)
  | block (b : List Tok) (name : String) (p : List Tok) (gs : List Group) :
      1 ≤ b.length → (∀ t ∈ b, isKeyTok gmap t = false) →
      Blocks gmap p gs → Blocks gmap (b ++ p) ((name, b.length) :: gs)

theorem sumSpans_of_blocks (gmap : GroupMap) :
    ∀ (p : List Tok) (gs : List Group), Blocks gmap p gs → sumSpans gs = p.length := by
  intro p gs h
  induction h with
  | nil => rfl
  | single t name p gs hsub ih => simp [sumSpans] at ih ⊢; omega
  | block b name p gs hlen hnok hsub ih => simp [sumSpans] at ih ⊢; omega

theorem blocks_default (gmap : GroupMap) (p : List Tok) :
    Blocks gmap p (default_groups_of p) := by
  induction p with
  | nil => exact Blocks.nil
  | cons t ts ih => exact Blocks.single t "None" ts (default_groups_of ts) ih

theorem get_map_match_index_spec (gmap : GroupMap) :
    ∀ (p : List Tok) (i : Nat), get_map_match_index gmap p = some i →
      i < p.length ∧ isKeyTok gmap (p.getD i (Tok.plain "")) = true := by
  intro p
  induction p with
  | nil => intro i h; simp [get_map_match_index] at h
  | cons t ts ih =>
    intro i h
    by_cases hk : isKeyTok gmap t
    · simp [get_map_match_index, hk] at h
      subst h
      exact ⟨by simp, by simpa using hk⟩
    · simp [get_map_match_index, hk] at h
      obtain ⟨i', hi', rfl⟩ := h
      obtain ⟨h1, h2⟩ := ih i' hi'
      exact ⟨by simpa using h1, by simpa using h2⟩

theorem get_map_match_index_append (gmap : GroupMap) (p : List Tok) :
    ∀ b : List Tok, (∀ t ∈ b, isKeyTok gmap t = false) →
      get_map_match_index gmap (b ++ p) =
        (get_map_match_index gmap p).map (· + b.length) := by
  intro b
  induction b with
  | nil =>
    intro _
    cases h : get_map_match_index gmap p <;> simp [h]
  | cons t b' ih =>
    intro hb
    have ht : isKeyTok gmap t = false := hb t (by simp)
    have hb' : ∀ t ∈ b', isKeyTok gmap t = false := fun t ht' => hb t (by simp [ht'])
    simp only [List.cons_append, get_map_match_index, ht, Bool.false_eq_true, if_false,
      List.append_eq]
    rw [ih hb']
    cases h : get_map_match_index gmap p
    · simp [h]
    · simp [h]
      omega

theorem gci_cons_block (t s : Nat) (hs : 1 ≤ s) (name : String) (gs : List Group) :
    get_current_group_index (s + t) ((name, s) :: gs) =
      1 + get_current_group_index t gs := by
  obtain ⟨k, hk⟩ : ∃ k, s + t = k + 1 := ⟨s + t - 1, by omega⟩
  rw [hk]
  show 1 + get_current_group_index (k + 1 - s) gs = _
  have hkt : k + 1 - s = t := by omega
  rw [hkt]

theorem take_append_cancel {α : Type} (p : List α) (i : Nat) :
    ∀ b : List α, (b ++ p).take (b.length + i) = b ++ p.take i := by
  intro b
  induction b with
  | nil => simp
  | cons x b' ih =>
    simp only [List.cons_append, List.length_cons]
    rw [Nat.succ_add, List.take_succ_cons, ih]

theorem drop_append_cancel {α : Type} (p : List α) (i : Nat) :
    ∀ b : List α, (b ++ p).drop (b.length + i) = p.drop i := by
  intro b
  induction b with
  | nil => simp
  | cons x b' ih =>
    simp only [List.cons_append, List.length_cons]
    rw [Nat.succ_add, List.drop_succ_cons, ih]

theorem getD_append_cancel {α : Type} (p : List α) (i : Nat) (d : α) :
    ∀ b : List α, (b ++ p).getD (b.length + i) d = p.getD i d := by
  intro b
  induction b with
  | nil => simp
  | cons x b' ih =>
    simp only [List.cons_append, List.length_cons]
    rw [Nat.succ_add, List.getD_cons_succ, ih]

theorem lookup_mem {V : Type} (k : String) (v : V) :
    ∀ l : List (String × V), l.lookup k = some v → ∃ k', (k', v) ∈ l := by
  intro l
  induction l with
  | nil => intro h; simp [List.lookup] at h
  | cons a t ih =>
    intro h
    by_cases hk : k == a.1
    · refine ⟨a.1, ?_⟩
      simp [List.lookup, hk] at h
      simp [← h]
    · simp only [List.lookup, hk] at h
      obtain ⟨k', hk'⟩ := ih h
      exact ⟨k', by simp [hk']⟩

theorem wf_lookup (gmap : GroupMap) (hwf : wellFormedGroupMap gmap = true)
    (nm : String) (gps : List (List Tok)) (hl : gmap.lookup nm = some gps) :
    ∀ gp ∈ gps, 1 ≤ gp.length ∧ ∀ t ∈ gp, isKeyTok gmap t = false := by
  intro gp hgp
  obtain ⟨k', hmem⟩ := lookup_mem nm gps gmap hl
  have := (List.all_eq_true.1 hwf) (k', gps) hmem
  simp only [Bool.and_eq_true, List.all_eq_true, decide_eq_true_eq] at this
  obtain ⟨h1, h2⟩ := this gp hgp
  exact ⟨h1, fun t ht => by simpa using h2 t ht⟩

/-- One rewrite step of `_expand_groups_recursive` preserves the block
decomposition (and with it the span-sum invariant), provided the group
map is well formed: non-empty expansions containing no group names. -/
theorem expand_groups_pair_blocks (gmap : GroupMap)
    (hwf : wellFormedGroupMap gmap = true) :
    ∀ (p : List Tok) (gs : List Group), Blocks gmap p gs →
      ∀ pr ∈ expand_groups_pair gmap p gs, Blocks gmap pr.1 pr.2 := by
  intro p gs hb
  induction hb with
  | nil =>
    intro pr hpr
    simp [expand_groups_pair, get_map_match_index] at hpr
    rw [hpr]
    exact Blocks.nil
  | single t name p gs hsub ih =>
    by_cases hk : isKeyTok gmap t
    · -- the head token is itself a group name: substitution at index 0
      intro pr hpr
      obtain ⟨nm, hnm⟩ : ∃ nm, t = Tok.plain nm := by
        cases t with
        | plain nm => exact ⟨nm, rfl⟩
        | range lo hi => simp [isKeyTok] at hk
      subst hnm
      obtain ⟨gps, hgps⟩ : ∃ gps, gmap.lookup nm = some gps := by
        simpa [isKeyTok, Option.isSome_iff_exists] using hk
      have hmatch : get_map_match_index gmap (Tok.plain nm :: p) = some 0 := by
        simp [get_map_match_index, hk]
      unfold expand_groups_pair at hpr
      rw [hmatch] at hpr
      simp only [List.getD_cons_zero, hgps, List.mem_map] at hpr
      obtain ⟨gp, hgp, rfl⟩ := hpr
      obtain ⟨hlen, hnok⟩ := wf_lookup gmap hwf nm gps hgps gp hgp
      show Blocks gmap (List.take 0 (Tok.plain nm :: p) ++ gp ++
        List.drop (0 + 1) (Tok.plain nm :: p)) _
      simp only [List.take_zero, List.nil_append, List.drop_succ_cons, List.drop_zero]
      show Blocks gmap (gp ++ p)
        (List.take (get_current_group_index 0 ((name, 1) :: gs)) ((name, 1) :: gs) ++
          [(nm, gp.length)] ++
          List.drop (get_current_group_index 0 ((name, 1) :: gs) + 1) ((name, 1) :: gs))
      show Blocks gmap (gp ++ p) (List.take 0 _ ++ [(nm, gp.length)] ++
        List.drop (0 + 1) ((name, 1) :: gs))
      simp only [List.take_zero, List.nil_append, List.drop_succ_cons, List.drop_zero,
        List.singleton_append]
      exact Blocks.block gp nm p gs hlen hnok hsub
    · -- ordinary head token: any substitution happens inside the tail
      intro pr hpr
      have hmatch : get_map_match_index gmap (t :: p) =
          (get_map_match_index gmap p).map (· + 1) := by
        simp [get_map_match_index, hk]
      unfold expand_groups_pair at hpr
      rw [hmatch] at hpr
      cases hres : get_map_match_index gmap p with
      | none =>
        rw [hres] at hpr
        simp at hpr
        rw [hpr]
        exact Blocks.single t name p gs hsub
      | some i =>
        rw [hres] at hpr
        simp only [Option.map_some'] at hpr
        obtain ⟨hilen, hikey⟩ := get_map_match_index_spec gmap p i hres
        obtain ⟨nm, hnm⟩ : ∃ nm, p.getD i (Tok.plain "") = Tok.plain nm := by
          cases htok : p.getD i (Tok.plain "") with
          | plain nm => exact ⟨nm, rfl⟩
          | range lo hi => rw [htok] at hikey; simp [isKeyTok] at hikey
        obtain ⟨gps, hgps⟩ : ∃ gps, gmap.lookup nm = some gps := by
          rw [hnm] at hikey
          simpa [isKeyTok, Option.isSome_iff_exists] using hikey
        have hgetD : (t :: p).getD (i + 1) (Tok.plain "") = Tok.plain nm := by
          rw [List.getD_cons_succ]
          exact hnm
        rw [hgetD] at hpr
        have hgci : get_current_group_index (i + 1) ((name, 1) :: gs) =
            1 + get_current_group_index i gs := by
          have := gci_cons_block i 1 (by omega) name gs
          simpa [Nat.add_comm] using this
        simp only [hgps, hgci, List.mem_map] at hpr
        obtain ⟨gp, hgp, rfl⟩ := hpr
        have htake : (t :: p).take (i + 1) = t :: p.take i := List.take_succ_cons
        have hdrop : (t :: p).drop (i + 1 + 1) = p.drop (i + 1) := List.drop_succ_cons
        have htakeg : ((name, 1) :: gs).take (1 + get_current_group_index i gs) =
            (name, 1) :: gs.take (get_current_group_index i gs) := by
          rw [Nat.add_comm]
          exact List.take_succ_cons
        have hdropg : ((name, 1) :: gs).drop (1 + get_current_group_index i gs + 1) =
            gs.drop (get_current_group_index i gs + 1) := by
          have : 1 + get_current_group_index i gs + 1 =
              (get_current_group_index i gs + 1) + 1 := by omega
          rw [this]
          exact List.drop_succ_cons
        rw [htake, hdrop, htakeg, hdropg]
        show Blocks gmap (t :: (p.take i ++ gp ++ p.drop (i + 1)))
          ((name, 1) :: (gs.take (get_current_group_index i gs) ++ [(nm, gp.length)] ++
            gs.drop (get_current_group_index i gs + 1)))
        refine Blocks.single t name _ _ ?_
        refine ih (p.take i ++ gp ++ p.drop (i + 1),
          gs.take (get_current_group_index i gs) ++ [(nm, gp.length)] ++
            gs.drop (get_current_group_index i gs + 1)) ?_
        unfold expand_groups_pair
        simp only [hres, hnm, hgps, List.mem_map]
        exact ⟨gp, hgp, rfl⟩
  | block b name p gs hlen hnok hsub ih =>
    intro pr hpr
    have hmatch : get_map_match_index gmap (b ++ p) =
        (get_map_match_index gmap p).map (· + b.length) :=
      get_map_match_index_append gmap p b hnok
    unfold expand_groups_pair at hpr
    rw [hmatch] at hpr
    cases hres : get_map_match_index gmap p with
    | none =>
      rw [hres] at hpr
      simp at hpr
      rw [hpr]
      exact Blocks.block b name p gs hlen hnok hsub
    | some i =>
      rw [hres] at hpr
      simp only [Option.map_some'] at hpr
      obtain ⟨hilen, hikey⟩ := get_map_match_index_spec gmap p i hres
      obtain ⟨nm, hnm⟩ : ∃ nm, p.getD i (Tok.plain "") = Tok.plain nm := by
        cases htok : p.getD i (Tok.plain "") with
        | plain nm => exact ⟨nm, rfl⟩
        | range lo hi => rw [htok] at hikey; simp [isKeyTok] at hikey
      obtain ⟨gps, hgps⟩ : ∃ gps, gmap.lookup nm = some gps := by
        rw [hnm] at hikey
        simpa [isKeyTok, Option.isSome_iff_exists] using hikey
      have hgetD : (b ++ p).getD (i + b.length) (Tok.plain "") = Tok.plain nm := by
        rw [Nat.add_comm, getD_append_cancel]
        exact hnm
      rw [hgetD] at hpr
      have hgci : get_current_group_index (i + b.length) ((name, b.length) :: gs) =
          1 + get_current_group_index i gs := by
        have := gci_cons_block i b.length hlen name gs
        simpa [Nat.add_comm] using this
      simp only [hgps, hgci, List.mem_map] at hpr
      obtain ⟨gp, hgp, rfl⟩ := hpr
      have htake : (b ++ p).take (i + b.length) = b ++ p.take i := by
        rw [Nat.add_comm]
        exact take_append_cancel p i b
      have hdrop : (b ++ p).drop (i + b.length + 1) = p.drop (i + 1) := by
        have : i + b.length + 1 = b.length + (i + 1) := by omega
        rw [this]
        exact drop_append_cancel p (i + 1) b
      have htakeg : ((name, b.length) :: gs).take (1 + get_current_group_index i gs) =
          (name, b.length) :: gs.take (get_current_group_index i gs) := by
        rw [Nat.add_comm]
        exact List.take_succ_cons
      have hdropg : ((name, b.length) :: gs).drop (1 + get_current_group_index i gs + 1) =
          gs.drop (get_current_group_index i gs + 1) := by
        have : 1 + get_current_group_index i gs + 1 =
            (get_current_group_index i gs + 1) + 1 := by omega
        rw [this]
        exact List.drop_succ_cons
      rw [htake, hdrop, htakeg, hdropg]
      show Blocks gmap ((b ++ p.take i ++ gp ++ p.drop (i + 1)) : List Tok) _
      have hassoc : b ++ p.take i ++ gp ++ p.drop (i + 1) =
          b ++ (p.take i ++ gp ++ p.drop (i + 1)) := by simp
      rw [hassoc]
      refine Blocks.block b name _ _ hlen hnok ?_
      refine ih (p.take i ++ gp ++ p.drop (i + 1),
        gs.take (get_current_group_index i gs) ++ [(nm, gp.length)] ++
          gs.drop (get_current_group_index i gs + 1)) ?_
      unfold expand_groups_pair
      simp only [hres, hnm, hgps, List.mem_map]
      exact ⟨gp, hgp, rfl⟩

/-! ## Combo computation and utterance materialisation -/

/-- `TOKEN_PATTERN` (hashable form): a sequence of components, each an
ordered sequence of candidate words/phrases. -/
abbrev TokenPattern := List (List String)

/-- A token handler: a function from (token name, candidate phrase) to an
annotated string. -/
abbrev TokenHandler := String → String → String

/-- A token handler map, as an association list. -/
abbrev TokenHandlerMap := List (String × TokenHandler)

/-- Modelled from the spec: the external generic combo joiner
(`putput.joiner.join_combo`, outside the verified source) with no combo
options enumerates the full cross product, one element per position, with
the last position varying fastest. -/
def join_combo {α : Type} : List (List α) → List (List α)
  | [] => [[]]
  | c :: cs => c.flatMap (fun x => (join_combo cs).map (fun rest => x :: rest))

/-- `_convert_token_patterns_to_tuples`: canonicalisation into tuples; on
the list embedding it rebuilds the same lists. -/
def convert_token_patterns_to_tuples (token_patterns : List TokenPattern) : List TokenPattern :=
  token_patterns.map (fun token_pattern => token_pattern.map (fun phrases => phrases))

/-- `_expand_token_pattern`: every surface phrase a token pattern can
produce — one pick per component, joined by single spaces.  (The
`lru_cache` memoisation is semantically transparent: the function is
pure.) -/
def expand_token_pattern (token_pattern : TokenPattern) : List String :=
  (join_combo token_pattern).map (fun phrase => String.intercalate " " phrase)

/-- `_compute_utterance_combo`. -/
def compute_utterance_combo (expanded_utterance_pattern : List (List TokenPattern)) :
    List (List String) :=
  expanded_utterance_pattern.map (fun token_patterns =>
    ((convert_token_patterns_to_tuples token_patterns).map expand_token_pattern).flatten)

/-- The built-in default token handler
`lambda token, phrase: '[{}({})]'.format(token, phrase)`. -/
def default_token_handler : TokenHandler :=
  fun token phrase => "[" ++ token ++ "(" ++ phrase ++ ")]"

/-- `_get_token_handler`: per-token entry, else the `'DEFAULT'` entry,
else the built-in handler.  `if token_handler_map:` is false both for
`None` and for an empty map. -/
def get_token_handler (token : String) (token_handler_map : Option TokenHandlerMap) :
    TokenHandler :=
  match token_handler_map with
  | some m =>
    if m.isEmpty then default_token_handler
    else ((m.lookup token).orElse (fun _ => m.lookup "DEFAULT")).getD default_token_handler
  | none => default_token_handler

/-- `_compute_handled_token_combo`: `zip(utterance_combo, tokens)`
truncates to the shorter of the two sequences. -/
def compute_handled_token_combo (utterance_combo : List (List String))
    (tokens : List String) (token_handler_map : Option TokenHandlerMap) :
    List (List String) :=
  (utterance_combo.zip tokens).map (fun pr =>
    pr.1.map (fun phrase => get_token_handler pr.2 token_handler_map pr.2 phrase))

/-- The selection loop of `generate_utterances_and_handled_tokens`:
`zip(utterance_combo, handled_token_combo, indices)` with
`utterance.append(utterance_component[index])` and
`handled_tokens.append(token_component[index])`; the zip stops at the
shortest of the three sequences. -/
def select_components : List (List String) → List (List String) → List Nat →
    List String × List String
  | uc :: ucs, tc :: tcs, i :: is' =>
    let rest := select_components ucs tcs is'
    (uc.getD i "" :: rest.1, tc.getD i "" :: rest.2)
  | _, _, _ => ([], [])

/-- `generate_utterances_and_handled_tokens` (public entry point 2), with
no combo options: every index combination of the combo is materialised
into `(utterance, handled tokens)` where the utterance joins the selected
phrases with single spaces. -/
def generate_utterances_and_handled_tokens (utterance_combo : List (List String))
    (tokens : List String) (token_handler_map : Option TokenHandlerMap) :
    List (String × List String) :=
  let handled_token_combo := compute_handled_token_combo utterance_combo tokens token_handler_map
  let combo_indices := utterance_combo.map (fun component => List.range component.length)
  (join_combo combo_indices).map (fun indices =>
    let sel := select_components utterance_combo handled_token_combo indices
    (String.intercalate " " sel.1, sel.2))


/-! ## Token pattern resolution (`_get_token_patterns_map`) -/

/-- Python `dict.update` on association lists: keys of `base` keep their
position with values overridden by `upd`, and keys new in `upd` are
appended. -/
def dict_update {V : Type} (base upd : List (String × V)) : List (String × V) :=
  base.map (fun kv =>
    match upd.lookup kv.1 with
    | some v => (kv.1, v)
    | none => kv) ++
  upd.filter (fun kv => (base.lookup kv.1).isNone)

/-- `_get_token_patterns_map`: start from the static map, then update with
the dynamic map (`dynamic_token_patterns_map or {}`). -/
def get_token_patterns_map {V : Type} (static_token_patterns_map : List (String × V))
    (dynamic_token_patterns_map : Option (List (String × V))) : List (String × V) :=
  dict_update (dict_update [] static_token_patterns_map)
    (dynamic_token_patterns_map.getD [])

/-! ## Association-list lookup lemmas -/

theorem lookup_append {V : Type} (l₁ l₂ : List (String × V)) (k : String) :
    (l₁ ++ l₂).lookup k = ((l₁.lookup k).orElse (fun _ => l₂.lookup k)) := by
  induction l₁ with
  | nil => simp [List.lookup]
  | cons a t ih =>
    by_cases h : k == a.1
    · simp [List.lookup, h, Option.orElse]
    · simp only [List.cons_append, List.lookup, h]
      exact ih

theorem lookup_map_override {V : Type} (upd : List (String × V)) (k : String) :
    ∀ base : List (String × V),
      (base.map (fun kv =>
        match upd.lookup kv.1 with
        | some v => (kv.1, v)
        | none => kv)).lookup k =
      match base.lookup k with
      | some w => some ((upd.lookup k).getD w)
      | none => none := by
  intro base
  induction base with
  | nil => simp [List.lookup]
  | cons a t ih =>
    obtain ⟨k', w⟩ := a
    by_cases h : k == k'
    · have hk : k = k' := by simpa using h
      subst hk
      cases hu : upd.lookup k <;>
        simp [List.lookup, hu]
    · cases hu : upd.lookup k' <;>
        simp only [List.map, List.lookup, hu, h] <;>
        exact ih

theorem lookup_filter_new {V : Type} (base : List (String × V)) (k : String) :
    ∀ upd : List (String × V),
      (upd.filter (fun kv => (base.lookup kv.1).isNone)).lookup k =
      if (base.lookup k).isNone then upd.lookup k else none := by
  intro upd
  induction upd with
  | nil => simp [List.lookup]
  | cons a t ih =>
    obtain ⟨k', v⟩ := a
    by_cases h : k == k'
    · have hk : k = k' := by simpa using h
      subst hk
      cases hb : (base.lookup k).isNone <;>
        simp [List.filter, List.lookup, hb, ih]
    · cases hb : (base.lookup k').isNone <;>
        simp only [List.filter, hb, List.lookup, h, ih]

theorem lookup_dict_update {V : Type} (base upd : List (String × V)) (k : String) :
    (dict_update base upd).lookup k =
      match upd.lookup k with
      | some v => some v
      | none => base.lookup k := by
  unfold dict_update
  rw [lookup_append, lookup_map_override, lookup_filter_new]
  cases hu : upd.lookup k <;> cases hb : base.lookup k <;>
    simp [hu, hb, Option.orElse]

/-- C9: in the merged token-patterns map, a token name present in the
dynamic map resolves to the dynamic entry, a name absent from the dynamic
map resolves to the static entry, and with no dynamic map supplied the
merge is the static map. -/
theorem token_patterns_dynamic_precedence {V : Type}
    (static_map dynamic_map : List (String × V)) (k : String) :
    (∀ v, dynamic_map.lookup k = some v →
      (get_token_patterns_map static_map (some dynamic_map)).lookup k = some v) ∧
    (dynamic_map.lookup k = none →
      (get_token_patterns_map static_map (some dynamic_map)).lookup k =
        static_map.lookup k) ∧
    (get_token_patterns_map static_map none).lookup k = static_map.lookup k := by
  have hbase : (dict_update ([] : List (String × V)) static_map).lookup k =
      static_map.lookup k := by
    rw [lookup_dict_update]
    cases hs : static_map.lookup k <;> simp [List.lookup]
  refine ⟨?_, ?_, ?_⟩
  · intro v hv
    unfold get_token_patterns_map
    rw [lookup_dict_update]
    simp [hv]
  · intro hn
    unfold get_token_patterns_map
    rw [lookup_dict_update]
    simpa [hn] using hbase
  · unfold get_token_patterns_map
    rw [lookup_dict_update]
    simpa [List.lookup] using hbase

theorem token_patterns_dynamic_precedence_witness :
    (get_token_patterns_map [("A", 1), ("B", 2)] (some [("A", 3)])).lookup "A" = some 3 ∧
    (get_token_patterns_map [("A", 1), ("B", 2)] (some [("A", 3)])).lookup "B" = some 2 := by
  refine ⟨(token_patterns_dynamic_precedence [("A", 1), ("B", 2)] [("A", 3)] "A").1 3 rfl, ?_⟩
  have h := (token_patterns_dynamic_precedence [("A", 1), ("B", 2)] [("A", 3)] "B").2.1 rfl
  rw [h]
  rfl

/-! ## Token-handler resolution (C8) -/

/-- C8: the resolved token handler follows the layered fallback order —
per-token entry, else the map-wide `'DEFAULT'` entry, else the built-in
default handler; with no handler map at all, the built-in default. -/
theorem token_handler_layered_fallback (token : String) (m : TokenHandlerMap) :
    get_token_handler token none = default_token_handler ∧
    (∀ h, m.lookup token = some h → get_token_handler token (some m) = h) ∧
    (m.lookup token = none → ∀ d, m.lookup "DEFAULT" = some d →
      get_token_handler token (some m) = d) ∧
    (m.lookup token = none → m.lookup "DEFAULT" = none →
      get_token_handler token (some m) = default_token_handler) := by
  refine ⟨rfl, ?_, ?_, ?_⟩
  · intro h hl
    have hm : m.isEmpty = false := by
      cases m with
      | nil => simp [List.lookup] at hl
      | cons a t => rfl
    simp [get_token_handler, hm, hl, Option.orElse]
  · intro hn d hd
    have hm : m.isEmpty = false := by
      cases m with
      | nil => simp [List.lookup] at hd
      | cons a t => rfl
    simp [get_token_handler, hm, hn, hd, Option.orElse]
  · intro hn hd
    cases m with
    | nil => rfl
    | cons a t => simp [get_token_handler, List.isEmpty, hn, hd, Option.orElse]

/-- An example custom handler used by the witnesses. -/
def colon_handler : TokenHandler := fun token phrase => token ++ ":" ++ phrase

theorem token_handler_layered_fallback_witness :
    get_token_handler "A" none = default_token_handler ∧
    get_token_handler "A" (some [("A", colon_handler)]) = colon_handler ∧
    get_token_handler "A" (some [("B", colon_handler), ("DEFAULT", colon_handler)]) =
      colon_handler ∧
    get_token_handler "A" (some [("B", colon_handler)]) = default_token_handler := by
  refine ⟨(token_handler_layered_fallback "A" []).1,
    (token_handler_layered_fallback "A" [("A", colon_handler)]).2.1 colon_handler rfl,
    (token_handler_layered_fallback "A"
      [("B", colon_handler), ("DEFAULT", colon_handler)]).2.2.1 ?_ colon_handler ?_,
    (token_handler_layered_fallback "A" [("B", colon_handler)]).2.2.2 ?_ ?_⟩ <;> rfl

/-! ## The concrete two-utterance scenario (C5) -/

/-- C5: the grammar `utterance_patterns: [[A, B]]` with `A ↦ ["hi"]` and
`B ↦ ["there"] | ["world"]`, no groups, no ranges and no handler map
yields exactly `("hi there", ("[A(hi)]", "[B(there)]"))` and
`("hi world", ("[A(hi)]", "[B(world)]"))`, the utterances joining the
selected phrases with single spaces. -/
theorem concrete_two_utterance_scenario :
    generate_utterances_and_handled_tokens
      (compute_utterance_combo [[[["hi"]]], [[["there"]], [["world"]]]])
      ["A", "B"] none =
    [("hi there", ["[A(hi)]", "[B(there)]"]),
     ("hi world", ["[A(hi)]", "[B(world)]"])] := by decide

/-! ## Combo shapes (C6) and token-sequence truncation (C10) -/

theorem zip_take_length {α β : Type} :
    ∀ (l₁ : List α) (l₂ : List β), l₁.zip l₂ = (l₁.take l₂.length).zip l₂
  | [], _ => by simp
  | _ :: _, [] => by simp
  | a :: t₁, b :: t₂ => by
    simp only [List.length_cons, List.take_succ_cons, List.zip_cons_cons]
    rw [← zip_take_length t₁ t₂]

/-- C6 as stated is false: with fewer token names than combo positions,
the handled-token combo has fewer positions than the utterance combo. -/
theorem handled_combo_shape_counterexample :
    ¬ ((compute_handled_token_combo [["a"], ["b"]] ["A"] none).length =
        ([["a"], ["b"]] : List (List String)).length) := by decide

/-- C6 (amended): whenever the token-name sequence is at least as long as
the utterance combo — as in every pair produced by the pipeline, where the
two have equal length — the handled-token combo has exactly the same
shape: the same number of positions, and at each position as many entries
as the utterance combo has candidate phrases there. -/
theorem handled_combo_shape (uc : List (List String)) (tokens : List String)
    (thm : Option TokenHandlerMap) (h : uc.length ≤ tokens.length) :
    (compute_handled_token_combo uc tokens thm).map List.length = uc.map List.length := by
  unfold compute_handled_token_combo
  rw [List.map_map]
  have hcomp :
      (List.length ∘ fun pr : List String × String =>
        pr.1.map (fun phrase => get_token_handler pr.2 thm pr.2 phrase)) =
      (fun pr : List String × String => pr.1.length) := by
    funext pr
    simp
  rw [hcomp]
  conv_rhs => rw [← List.map_fst_zip uc tokens h]
  rw [List.map_map]
  rfl

theorem handled_combo_shape_witness :
    (compute_handled_token_combo [["a"], ["b", "c"]] ["A", "B"] none).map List.length =
      ([["a"], ["b", "c"]] : List (List String)).map List.length :=
  handled_combo_shape [["a"], ["b", "c"]] ["A", "B"] none (by decide)

theorem mem_join_combo_length {α : Type} :
    ∀ (cs : List (List α)) (ix : List α), ix ∈ join_combo cs → ix.length = cs.length := by
  intro cs
  induction cs with
  | nil => intro ix h; simp [join_combo] at h; simp [h]
  | cons c cs ih =>
    intro ix h
    simp only [join_combo, List.mem_flatMap, List.mem_map] at h
    obtain ⟨x, _, tl, htl, rfl⟩ := h
    simp [ih tl htl]

theorem take_mem_join_combo {α : Type} :
    ∀ (cs₁ cs₂ : List (List α)) (ix : List α), ix ∈ join_combo (cs₁ ++ cs₂) →
      ix.take cs₁.length ∈ join_combo cs₁ := by
  intro cs₁
  induction cs₁ with
  | nil => intro cs₂ ix _; simp [join_combo]
  | cons c cs₁ ih =>
    intro cs₂ ix h
    simp only [List.cons_append, join_combo, List.mem_flatMap, List.mem_map] at h
    obtain ⟨x, hx, tl, htl, rfl⟩ := h
    simp only [List.length_cons, List.take_succ_cons, join_combo, List.mem_flatMap,
      List.mem_map]
    exact ⟨x, hx, tl.take cs₁.length, ih cs₂ tl htl, rfl⟩

theorem select_components_take :
    ∀ (tc uc : List (List String)) (ix : List Nat),
      select_components uc tc ix =
        select_components (uc.take tc.length) tc (ix.take tc.length) := by
  intro tc
  induction tc with
  | nil =>
    intro uc ix
    cases uc <;> simp [select_components]
  | cons c tcs ih =>
    intro uc ix
    cases uc with
    | nil => simp [select_components]
    | cons u ucs =>
      cases ix with
      | nil => simp [select_components]
      | cons i ixs =>
        simp only [List.length_cons, List.take_succ_cons, select_components]
        rw [ih ucs ixs]

/-- C10: when the token-name sequence is shorter than the utterance combo,
no failure occurs — the handled-token combo is computed only for the
first `tokens.length` positions (and has that many positions), and every
yielded (utterance, handled-tokens) pair is a pair the truncated combo
would yield: both components are built from the first `tokens.length`
combo positions only. -/
theorem shorter_tokens_silently_truncate (uc : List (List String)) (tokens : List String)
    (thm : Option TokenHandlerMap) (h : tokens.length < uc.length) :
    compute_handled_token_combo uc tokens thm =
      compute_handled_token_combo (uc.take tokens.length) tokens thm ∧
    (compute_handled_token_combo uc tokens thm).length = tokens.length ∧
    ∀ pr ∈ generate_utterances_and_handled_tokens uc tokens thm,
      pr ∈ generate_utterances_and_handled_tokens (uc.take tokens.length) tokens thm := by
  have hk : tokens.length ≤ uc.length := Nat.le_of_lt h
  have htrunc : compute_handled_token_combo uc tokens thm =
      compute_handled_token_combo (uc.take tokens.length) tokens thm := by
    unfold compute_handled_token_combo
    rw [zip_take_length uc tokens]
  have hlen : (compute_handled_token_combo uc tokens thm).length = tokens.length := by
    unfold compute_handled_token_combo
    simp [Nat.min_eq_right hk]
  refine ⟨htrunc, hlen, ?_⟩
  intro pr hpr
  unfold generate_utterances_and_handled_tokens at hpr ⊢
  simp only [List.mem_map] at hpr ⊢
  obtain ⟨ix, hix, rfl⟩ := hpr
  refine ⟨ix.take tokens.length, ?_, ?_⟩
  · have hsplit : uc.map (fun component => List.range component.length) =
        (uc.take tokens.length).map (fun component => List.range component.length) ++
        (uc.drop tokens.length).map (fun component => List.range component.length) := by
      rw [← List.map_append, List.take_append_drop]
    have hlen' : ((uc.take tokens.length).map
        (fun component => List.range component.length)).length = tokens.length := by
      simp only [List.length_map, List.length_take]
      omega
    rw [hsplit] at hix
    have := take_mem_join_combo
      ((uc.take tokens.length).map (fun component => List.range component.length))
      ((uc.drop tokens.length).map (fun component => List.range component.length)) ix hix
    rwa [hlen'] at this
  · rw [← htrunc]
    rw [select_components_take (compute_handled_token_combo uc tokens thm) uc ix, hlen]

/-! ## Range rewrites (C3, C4) -/

/-- C3: when the first range-syntax token of a pattern sits at position
`i > 0` and parses to explicit bounds `(lo, hi)`, a rewrite pass of the
Range Expander replaces the (previous token, range token) pair with `v`
copies of the previous token for every `v` in `[lo, hi)`, producing
exactly `hi - lo` sibling patterns; in particular bounds `(2,4)` after
`X` expand to exactly `[X, X]` and `[X, X, X]`. -/
theorem bounded_range_fanout (p : List Tok) (i lo hi : Nat)
    (hidx : get_regex_match_index p = some i) (hpos : 0 < i)
    (htok : p.getD i (Tok.plain "") = Tok.range (some lo) hi) :
    handle_ranges_pattern p =
      (List.range' lo (hi - lo)).map
        (fun v => p.take (i - 1) ++
          List.replicate v (p.getD (i - 1) (Tok.plain "")) ++ p.drop (i + 1)) ∧
    (handle_ranges_pattern p).length = hi - lo ∧
    handle_ranges 2 [[Tok.plain "X", Tok.range (some 2) 4]] =
      some [[Tok.plain "X", Tok.plain "X"],
            [Tok.plain "X", Tok.plain "X", Tok.plain "X"]] := by
  have hbody : handle_ranges_pattern p =
      (List.range' lo (hi - lo)).map
        (fun v => p.take (i - 1) ++
          List.replicate v (p.getD (i - 1) (Tok.plain "")) ++ p.drop (i + 1)) := by
    unfold handle_ranges_pattern
    simp only [hidx]
    rw [if_pos hpos, htok]
    rfl
  refine ⟨hbody, ?_, by decide⟩
  rw [hbody]
  simp

theorem bounded_range_fanout_witness :
    handle_ranges_pattern [Tok.plain "X", Tok.range (some 2) 4] =
      (List.range' 2 2).map
        (fun v => ([Tok.plain "X", Tok.range (some 2) 4] : List Tok).take 0 ++
          List.replicate v (([Tok.plain "X", Tok.range (some 2) 4] : List Tok).getD 0 (Tok.plain "")) ++
          ([Tok.plain "X", Tok.range (some 2) 4] : List Tok).drop 2) ∧
    (handle_ranges_pattern [Tok.plain "X", Tok.range (some 2) 4]).length = 2 ∧
    handle_ranges 2 [[Tok.plain "X", Tok.range (some 2) 4]] =
      some [[Tok.plain "X", Tok.plain "X"],
            [Tok.plain "X", Tok.plain "X", Tok.plain "X"]] :=
  bounded_range_fanout [Tok.plain "X", Tok.range (some 2) 4] 1 2 4 (by decide) (by decide)
    (by decide)

/-- C4: when the first range-syntax token of a pattern sits at position
`i > 0` and parses with no minimum and maximum `hi`, a rewrite pass of
the Range Expander replaces the (previous token, range token) pair with
exactly `hi` copies of the previous token, producing exactly one output
pattern; in particular `[X, RANGE(3)]` expands to exactly `[X, X, X]`. -/
theorem fixed_count_range_no_fanout (p : List Tok) (i hi : Nat)
    (hidx : get_regex_match_index p = some i) (hpos : 0 < i)
    (htok : p.getD i (Tok.plain "") = Tok.range none hi) :
    handle_ranges_pattern p =
      [p.take (i - 1) ++
        List.replicate hi (p.getD (i - 1) (Tok.plain "")) ++ p.drop (i + 1)] ∧
    (handle_ranges_pattern p).length = 1 ∧
    handle_ranges 2 [[Tok.plain "X", Tok.range none 3]] =
      some [[Tok.plain "X", Tok.plain "X", Tok.plain "X"]] := by
  have hbody : handle_ranges_pattern p =
      [p.take (i - 1) ++
        List.replicate hi (p.getD (i - 1) (Tok.plain "")) ++ p.drop (i + 1)] := by
    unfold handle_ranges_pattern
    simp only [hidx]
    rw [if_pos hpos, htok]
    rfl
  exact ⟨hbody, by rw [hbody]; rfl, by decide⟩

theorem fixed_count_range_no_fanout_witness :
    handle_ranges_pattern [Tok.plain "X", Tok.range none 3] =
      [([Tok.plain "X", Tok.range none 3] : List Tok).take 0 ++
        List.replicate 3 (([Tok.plain "X", Tok.range none 3] : List Tok).getD 0 (Tok.plain "")) ++
        ([Tok.plain "X", Tok.range none 3] : List Tok).drop 2] ∧
    (handle_ranges_pattern [Tok.plain "X", Tok.range none 3]).length = 1 ∧
    handle_ranges 2 [[Tok.plain "X", Tok.range none 3]] =
      some [[Tok.plain "X", Tok.plain "X", Tok.plain "X"]] :=
  fixed_count_range_no_fanout [Tok.plain "X", Tok.range none 3] 1 3 (by decide) (by decide)
    (by decide)

/-! ## Termination of the Range Expander (C2) -/

/-- A token calling for at least one copy when rewritten: an explicit
minimum of at least 1, a fixed count of at least 1, or an ordinary
token. -/
def okTok : Tok → Bool
  | Tok.range (some lo) _ => decide (1 ≤ lo)
  | Tok.range none hi => decide (1 ≤ hi)
  | Tok.plain _ => true

/-- A pattern whose first token is not a range token and whose range
tokens all call for at least one copy. -/
def goodPattern (p : List Tok) : Bool :=
  p.all okTok && !matchesRange (p.getD 0 (Tok.plain ""))

/-- Number of range tokens in a pattern. -/
def rangeCount (p : List Tok) : Nat :=
  p.countP (fun t => matchesRange t)

/-- The largest number of range tokens over the pattern sequence. -/
def maxRangeCount (ps : List (List Tok)) : Nat :=
  ps.foldr (fun p m => max (rangeCount p) m) 0

theorem get_regex_match_index_spec :
    ∀ (p : List Tok) (i : Nat), get_regex_match_index p = some i →
      i < p.length ∧ matchesRange (p.getD i (Tok.plain "")) = true ∧
        ∀ j, j < i → matchesRange (p.getD j (Tok.plain "")) = false := by
  intro p
  induction p with
  | nil => intro i h; simp [get_regex_match_index] at h
  | cons t ts ih =>
    intro i h
    by_cases hm : matchesRange t
    · simp [get_regex_match_index, hm] at h
      subst h
      exact ⟨by simp, by simpa using hm, by intro j hj; omega⟩
    · simp [get_regex_match_index, hm] at h
      obtain ⟨i', hi', rfl⟩ := h
      obtain ⟨h1, h2, h3⟩ := ih i' hi'
      refine ⟨by simpa using h1, by simpa using h2, ?_⟩
      intro j hj
      cases j with
      | zero => simpa using hm
      | succ j' => simpa using h3 j' (by omega)

theorem get_regex_match_index_none_iff (p : List Tok) :
    get_regex_match_index p = none ↔ rangeCount p = 0 := by
  induction p with
  | nil => simp [get_regex_match_index, rangeCount]
  | cons t ts ih =>
    by_cases hm : matchesRange t
    · simp [get_regex_match_index, hm, rangeCount, List.countP_cons]
    · simp only [get_regex_match_index, hm, Bool.false_eq_true, if_false, Option.map_eq_none',
        rangeCount, List.countP_cons, hm, if_false, Nat.add_zero]
      exact ih

theorem countP_replicate_not {α : Type} (pred : α → Bool) (x : α) (hx : pred x = false) :
    ∀ v, List.countP pred (List.replicate v x) = 0 := by
  intro v
  induction v with
  | zero => simp
  | succ n ih => simp [List.replicate_succ, List.countP_cons, hx, ih]

theorem handle_ranges_pattern_no_match (p : List Tok)
    (h : get_regex_match_index p = none) : handle_ranges_pattern p = [p] := by
  unfold handle_ranges_pattern
  rw [h]

theorem handle_ranges_pattern_match_zero (p : List Tok)
    (h : get_regex_match_index p = some 0) : handle_ranges_pattern p = [p] := by
  unfold handle_ranges_pattern
  rw [h]
  rfl

/-- Decomposition of a pattern around its first range match at `i > 0`:
the token before the match, the matched token, and the rest. -/
theorem pattern_split_at_match (p : List Tok) (i : Nat) (hi : i < p.length) (hpos : 0 < i) :
    p = p.take (i - 1) ++
      p.getD (i - 1) (Tok.plain "") :: p.getD i (Tok.plain "") :: p.drop (i + 1) := by
  have h1 : i - 1 < p.length := by omega
  have hd1 : p.drop (i - 1) = p.getD (i - 1) (Tok.plain "") :: p.drop (i - 1 + 1) := by
    rw [List.drop_eq_getElem_cons h1, List.getD_eq_getElem _ _ h1]
  have heq : i - 1 + 1 = i := by omega
  have hd2 : p.drop i = p.getD i (Tok.plain "") :: p.drop (i + 1) := by
    rw [List.drop_eq_getElem_cons hi, List.getD_eq_getElem _ _ hi]
  conv_lhs => rw [← List.take_append_drop (i - 1) p]
  rw [hd1, heq, hd2]

theorem handle_ranges_pattern_good (p : List Tok) (i : Nat)
    (hg : goodPattern p = true) (hm : get_regex_match_index p = some i) :
    ∀ q ∈ handle_ranges_pattern p,
      goodPattern q = true ∧ rangeCount q + 1 = rangeCount p := by
  obtain ⟨hilen, hitok, hprev⟩ := get_regex_match_index_spec p i hm
  have hall : p.all okTok = true := by
    unfold goodPattern at hg
    exact (Bool.and_eq_true_iff.1 hg).1
  have hhead : matchesRange (p.getD 0 (Tok.plain "")) = false := by
    unfold goodPattern at hg
    simpa using (Bool.and_eq_true_iff.1 hg).2
  have hpos : 0 < i := by
    rcases Nat.eq_zero_or_pos i with h0 | h0
    · subst h0; rw [hhead] at hitok; cases hitok
    · exact h0
  have hprev1 : matchesRange (p.getD (i - 1) (Tok.plain "")) = false :=
    hprev (i - 1) (by omega)
  have hsplit := pattern_split_at_match p i hilen hpos
  -- the count of the whole pattern in terms of its pieces
  have hcount : rangeCount p =
      rangeCount (p.take (i - 1)) + rangeCount (p.drop (i + 1)) + 1 := by
    conv_lhs => rw [hsplit]
    unfold rangeCount
    rw [List.countP_append, List.countP_cons, List.countP_cons, hprev1, hitok]
    simp
    omega
  -- each rewritten sibling is good and drops exactly one range token
  have hq : ∀ v, 1 ≤ v →
      goodPattern (p.take (i - 1) ++
        List.replicate v (p.getD (i - 1) (Tok.plain "")) ++ p.drop (i + 1)) = true ∧
      rangeCount (p.take (i - 1) ++
        List.replicate v (p.getD (i - 1) (Tok.plain "")) ++ p.drop (i + 1)) + 1 =
        rangeCount p := by
    intro v hv
    constructor
    · unfold goodPattern
      rw [Bool.and_eq_true_iff]
      constructor
      · rw [List.all_eq_true]
        intro t ht
        rw [List.mem_append] at ht
        rcases ht with ht | ht
        · rw [List.mem_append] at ht
          rcases ht with ht | ht
          · exact (List.all_eq_true.1 hall) t (List.take_subset _ _ ht)
          · have := List.eq_of_mem_replicate ht
            subst this
            refine (List.all_eq_true.1 hall) _ ?_
            rw [List.getD_eq_getElem _ _ (by omega : i - 1 < p.length)]
            exact List.getElem_mem _
        · exact (List.all_eq_true.1 hall) t (List.drop_subset _ _ ht)
      · -- first token of the rewritten pattern is not a range token
        rcases Nat.eq_zero_or_pos (i - 1) with hl | hl
        · rw [hl]
          simp only [List.take_zero, List.nil_append]
          obtain ⟨v', rfl⟩ : ∃ v', v = v' + 1 := ⟨v - 1, by omega⟩
          rw [List.replicate_succ]
          simp only [List.cons_append, List.getD_cons_zero]
          rw [hl] at hprev1
          simpa using hprev1
        · obtain ⟨a, p', rfl⟩ : ∃ a p', p = a :: p' := by
            cases p with
            | nil => simp at hilen
            | cons a p' => exact ⟨a, p', rfl⟩
          obtain ⟨k, hk⟩ : ∃ k, i - 1 = k + 1 := ⟨i - 2, by omega⟩
          rw [hk, List.take_succ_cons]
          simp only [List.cons_append, List.getD_cons_zero]
          simpa using hhead
    · unfold rangeCount
      rw [List.countP_append, List.countP_append,
        countP_replicate_not _ _ hprev1 v]
      have hc := hcount
      unfold rangeCount at hc
      omega
  unfold handle_ranges_pattern
  simp only [hm]
  rw [if_pos hpos]
  intro q hqm
  cases htokform : p.getD i (Tok.plain "") with
  | plain name =>
    rw [htokform] at hitok
    simp [matchesRange] at hitok
  | range lo hi =>
    rw [htokform] at hqm
    have hok : okTok (Tok.range lo hi) = true := by
      refine (List.all_eq_true.1 hall) _ ?_
      rw [← htokform, List.getD_eq_getElem _ _ hilen]
      exact List.getElem_mem _
    cases lo with
    | some l =>
      simp only [parse_range_token, List.mem_map] at hqm
      obtain ⟨v, hvmem, rfl⟩ := hqm
      have hv1 : 1 ≤ l := by simpa [okTok] using hok
      have hvge : l ≤ v := by
        obtain ⟨j, _, rfl⟩ := List.mem_range'.1 hvmem
        omega
      exact hq v (by omega)
    | none =>
      simp only [parse_range_token, List.mem_singleton] at hqm
      subst hqm
      have hv1 : 1 ≤ hi := by simpa [okTok] using hok
      exact hq hi hv1

theorem maxRangeCount_cons (a : List Tok) (t : List (List Tok)) :
    maxRangeCount (a :: t) = max (rangeCount a) (maxRangeCount t) := rfl

theorem rangeCount_le_maxRangeCount (ps : List (List Tok)) (p : List Tok) (h : p ∈ ps) :
    rangeCount p ≤ maxRangeCount ps := by
  induction ps with
  | nil => simp at h
  | cons a t ih =>
    rw [maxRangeCount_cons]
    rcases List.mem_cons.1 h with rfl | h'
    · exact Nat.le_max_left _ _
    · exact Nat.le_trans (ih h') (Nat.le_max_right _ _)

theorem maxRangeCount_le (ps : List (List Tok)) (m : Nat)
    (h : ∀ p ∈ ps, rangeCount p ≤ m) : maxRangeCount ps ≤ m := by
  induction ps with
  | nil => exact Nat.zero_le m
  | cons a t ih =>
    rw [maxRangeCount_cons]
    exact Nat.max_le.2 ⟨h a (by simp), ih (fun p hp => h p (by simp [hp]))⟩

theorem one_le_maxRangeCount_of_match (ps : List (List Tok))
    (h : any_patterns_match_regex ps = true) : 1 ≤ maxRangeCount ps := by
  unfold any_patterns_match_regex at h
  obtain ⟨p, hp, hsome⟩ := List.any_eq_true.1 h
  obtain ⟨i, hi⟩ := Option.isSome_iff_exists.1 hsome
  obtain ⟨hilen, hitok, -⟩ := get_regex_match_index_spec p i hi
  have hpos : 0 < rangeCount p := by
    unfold rangeCount
    refine List.countP_pos_iff.2 ⟨p.getD i (Tok.plain ""), ?_, hitok⟩
    rw [List.getD_eq_getElem _ _ hilen]
    exact List.getElem_mem _
  exact Nat.le_trans hpos (rangeCount_le_maxRangeCount ps p hp)

theorem handle_ranges_step_good (ps : List (List Tok))
    (hg : ∀ p ∈ ps, goodPattern p = true)
    (hm : any_patterns_match_regex ps = true) :
    (∀ q ∈ handle_ranges_step ps, goodPattern q = true) ∧
    maxRangeCount (handle_ranges_step ps) ≤ maxRangeCount ps - 1 := by
  have hmax1 := one_le_maxRangeCount_of_match ps hm
  have hmain : ∀ q ∈ handle_ranges_step ps,
      goodPattern q = true ∧ rangeCount q ≤ maxRangeCount ps - 1 := by
    intro q hq
    obtain ⟨p, hp, hqp⟩ := List.mem_flatMap.1 hq
    cases hidx : get_regex_match_index p with
    | none =>
      rw [handle_ranges_pattern_no_match p hidx] at hqp
      have hqeq : q = p := List.mem_singleton.1 hqp
      rw [hqeq]
      have hzero := (get_regex_match_index_none_iff p).1 hidx
      exact ⟨hg p hp, by omega⟩
    | some i =>
      have hpq := handle_ranges_pattern_good p i (hg p hp) hidx
      have hple := rangeCount_le_maxRangeCount ps p hp
      obtain ⟨hgq, hcq⟩ := hpq q hqp
      exact ⟨hgq, by omega⟩
  exact ⟨fun q hq => (hmain q hq).1,
    maxRangeCount_le _ _ (fun q hq => (hmain q hq).2)⟩

theorem handle_ranges_terminates_aux :
    ∀ (fuel : Nat) (ps : List (List Tok)), (∀ p ∈ ps, goodPattern p = true) →
      maxRangeCount ps ≤ fuel → (handle_ranges fuel ps).isSome = true := by
  intro fuel
  induction fuel with
  | zero =>
    intro ps hg hle
    have hnm : any_patterns_match_regex ps = false := by
      by_contra h
      have := one_le_maxRangeCount_of_match ps (by
        cases hx : any_patterns_match_regex ps
        · exact absurd hx h
        · rfl)
      omega
    unfold handle_ranges
    simp [hnm]
  | succ f ih =>
    intro ps hg hle
    unfold handle_ranges
    by_cases hm : any_patterns_match_regex ps
    · simp only [hm, if_true]
      obtain ⟨hgood, hdec⟩ := handle_ranges_step_good ps hg hm
      exact ih (handle_ranges_step ps) hgood (by omega)
    · simp [hm]

/-- C2 as stated is false: on the input `[[RANGE(3)]]` — a fixed-count
range token at position 0 — every rewrite pass returns the input
unchanged while the base-case test still sees a range-syntax match, so
the fixed-point recursion of `_handle_ranges` never terminates (the
Python call overflows the recursion limit instead of returning the
pattern unmodified). -/
theorem range_expander_termination_counterexample :
    ¬ ∃ fuel : Nat, (handle_ranges fuel [[Tok.range none 3]]).isSome = true := by
  rintro ⟨fuel, hs⟩
  have hnone : ∀ f : Nat, handle_ranges f [[Tok.range none 3]] = none := by
    intro f
    induction f with
    | zero =>
      simp [handle_ranges, any_patterns_match_regex, get_regex_match_index, matchesRange]
    | succ n ih =>
      simpa [handle_ranges, any_patterns_match_regex, get_regex_match_index,
        matchesRange, handle_ranges_step, handle_ranges_pattern] using ih
  rw [hnone fuel] at hs
  cases hs

/-- C2 (amended): a single rewrite pass of the Range Expander treats a
range-syntax token at position 0 as no match and passes that pattern
through unmodified; consequently the fixed-point recursion does not
terminate on such inputs.  The Range Expander does terminate — with the
maximal per-pattern number of range tokens as the bound on rewrite
passes — on every finite input whose patterns each start with a
non-range token and whose range tokens all call for at least one copy
(explicit minimum at least 1, or fixed count at least 1). -/
theorem range_expander_termination (ps : List (List Tok))
    (hg : ∀ p ∈ ps, goodPattern p = true) :
    (handle_ranges (maxRangeCount ps) ps).isSome = true ∧
    ∀ p : List Tok, get_regex_match_index p = some 0 → handle_ranges_pattern p = [p] :=
  ⟨handle_ranges_terminates_aux (maxRangeCount ps) ps hg (Nat.le_refl _),
    fun p h => handle_ranges_pattern_match_zero p h⟩

theorem range_expander_termination_witness :
    (handle_ranges (maxRangeCount [[Tok.plain "X", Tok.range (some 2) 4]])
      [[Tok.plain "X", Tok.range (some 2) 4]]).isSome = true ∧
    handle_ranges_pattern [Tok.range none 3] = [[Tok.range none 3]] := by
  have h := range_expander_termination [[Tok.plain "X", Tok.range (some 2) 4]] (by decide)
  exact ⟨h.1, h.2 [Tok.range none 3] (by decide)⟩

/-! ## Default groups (C7) -/

theorem zip_expand_groups_once (gmap : GroupMap) (ps : List (List Tok))
    (gss : List (List Group)) :
    (expand_groups_once gmap ps gss).1.zip (expand_groups_once gmap ps gss).2 =
      (ps.zip gss).flatMap (fun pr => expand_groups_pair gmap pr.1 pr.2) := by
  unfold expand_groups_once
  rw [List.zip_map']
  simp

theorem expand_groups_pair_no_match (gmap : GroupMap) (p : List Tok) (gs : List Group)
    (h : get_map_match_index gmap p = none) :
    expand_groups_pair gmap p gs = [(p, gs)] := by
  unfold expand_groups_pair
  rw [h]

theorem mem_expand_groups_recursive_of_fixed (gmap : GroupMap) (p : List Tok)
    (gs : List Group) (hfix : get_map_match_index gmap p = none) :
    ∀ (fuel : Nat) (ps : List (List Tok)) (gss : List (List Group))
      (out : List (List Tok) × List (List Group)),
      expand_groups_recursive fuel gmap ps gss = some out →
      (p, gs) ∈ ps.zip gss → (p, gs) ∈ out.1.zip out.2 := by
  intro fuel
  induction fuel with
  | zero =>
    intro ps gss out hout hmem
    unfold expand_groups_recursive at hout
    by_cases hm : any_pattern_token_in_group_map ps gmap
    · simp [hm] at hout
    · simp [hm] at hout
      simpa [← hout] using hmem
  | succ f ih =>
    intro ps gss out hout hmem
    unfold expand_groups_recursive at hout
    by_cases hm : any_pattern_token_in_group_map ps gmap
    · simp only [hm, if_pos] at hout
      refine ih _ _ _ hout ?_
      rw [zip_expand_groups_once]
      refine List.mem_flatMap.2 ⟨(p, gs), hmem, ?_⟩
      rw [expand_groups_pair_no_match gmap p gs hfix]
      simp
    · simp [hm] at hout
      simpa [← hout] using hmem

/-- C7: with no `groups` declared, the Group Expander returns every
utterance pattern unchanged, paired with the default Group sequence
`(None, 1)` per token; and under any group map, a pattern containing no
group-name token keeps its default Group sequence in the output. -/
theorem no_groups_yield_default_groups :
    (∀ (fuel : Nat) (ps : List (List Tok)),
      expand_groups fuel none ps = some (ps, ps.map default_groups_of)) ∧
    (∀ (fuel : Nat) (gmap : GroupMap) (ps : List (List Tok)) (gss : List (List Group))
      (out : List (List Tok) × List (List Group)),
      expand_groups_recursive fuel gmap ps gss = some out →
      ∀ p : List Tok, (p, default_groups_of p) ∈ ps.zip gss →
        get_map_match_index gmap p = none →
        (p, default_groups_of p) ∈ out.1.zip out.2) := by
  refine ⟨fun fuel ps => rfl, ?_⟩
  intro fuel gmap ps gss out hout p hmem hfix
  exact mem_expand_groups_recursive_of_fixed gmap p (default_groups_of p) hfix fuel ps gss
    out hout hmem

theorem no_groups_yield_default_groups_witness :
    expand_groups 5 none [[Tok.plain "y"]] =
      some ([[Tok.plain "y"]], [[("None", 1)]]) ∧
    ([Tok.plain "y"], default_groups_of [Tok.plain "y"]) ∈
      ([[Tok.plain "y"]] : List (List Tok)).zip ([[("None", 1)]] : List (List Group)) := by
  constructor
  · exact no_groups_yield_default_groups.1 5 [[Tok.plain "y"]]
  · exact no_groups_yield_default_groups.2 1 [("G", [[Tok.plain "x"]])] [[Tok.plain "y"]]
      [[("None", 1)]] ([[Tok.plain "y"]], [[("None", 1)]]) (by decide) [Tok.plain "y"]
      (by decide) (by decide)

/-! ## C1: the span-sum invariant across rewrite steps -/

theorem expand_groups_once_blocks (gmap : GroupMap) (hwf : wellFormedGroupMap gmap = true)
    (ps : List (List Tok)) (gss : List (List Group))
    (h : ∀ pr ∈ ps.zip gss, Blocks gmap pr.1 pr.2) :
    ∀ pr ∈ (expand_groups_once gmap ps gss).1.zip (expand_groups_once gmap ps gss).2,
      Blocks gmap pr.1 pr.2 := by
  intro pr hpr
  rw [zip_expand_groups_once] at hpr
  obtain ⟨pr0, hpr0, hin⟩ := List.mem_flatMap.1 hpr
  exact expand_groups_pair_blocks gmap hwf pr0.1 pr0.2 (h pr0 hpr0) pr hin

theorem blocks_iterate (gmap : GroupMap) (hwf : wellFormedGroupMap gmap = true) :
    ∀ (n : Nat) (ps : List (List Tok)) (gss : List (List Group)),
      (∀ pr ∈ ps.zip gss, Blocks gmap pr.1 pr.2) →
      ∀ pr ∈ ((fun st : List (List Tok) × List (List Group) =>
            expand_groups_once gmap st.1 st.2)^[n] (ps, gss)).1.zip
          ((fun st : List (List Tok) × List (List Group) =>
            expand_groups_once gmap st.1 st.2)^[n] (ps, gss)).2,
        Blocks gmap pr.1 pr.2 := by
  intro n
  induction n with
  | zero =>
    intro ps gss h pr hpr
    exact h pr (by simpa using hpr)
  | succ k ih =>
    intro ps gss h
    rw [Function.iterate_succ_apply]
    exact ih (expand_groups_once gmap ps gss).1 (expand_groups_once gmap ps gss).2
      (expand_groups_once_blocks gmap hwf ps gss h)

theorem blocks_recursive (gmap : GroupMap) (hwf : wellFormedGroupMap gmap = true) :
    ∀ (fuel : Nat) (ps : List (List Tok)) (gss : List (List Group))
      (out : List (List Tok) × List (List Group)),
      (∀ pr ∈ ps.zip gss, Blocks gmap pr.1 pr.2) →
      expand_groups_recursive fuel gmap ps gss = some out →
      ∀ pr ∈ out.1.zip out.2, Blocks gmap pr.1 pr.2 := by
  intro fuel
  induction fuel with
  | zero =>
    intro ps gss out h hout
    unfold expand_groups_recursive at hout
    by_cases hm : any_pattern_token_in_group_map ps gmap
    · simp [hm] at hout
    · simp [hm] at hout
      intro pr hpr
      rw [← hout] at hpr
      exact h pr hpr
  | succ f ih =>
    intro ps gss out h hout
    unfold expand_groups_recursive at hout
    by_cases hm : any_pattern_token_in_group_map ps gmap
    · simp only [hm, if_true] at hout
      exact ih (expand_groups_once gmap ps gss).1 (expand_groups_once gmap ps gss).2 out
        (expand_groups_once_blocks gmap hwf ps gss h) hout
    · simp [hm] at hout
      intro pr hpr
      rw [← hout] at hpr
      exact h pr hpr

/-- C1 as stated is false: when a group's expansion contains another
group name, the second rewrite step maps the flat token index back to a
Group entry spanning two tokens and replaces that whole entry, losing a
token from the span sum.  On group map `A ↦ [B, C]`, `B ↦ [b]` and input
pattern `[A]`, the Group Expander outputs the pair `([b, C], [(B, 1)])`
whose span sum 1 differs from the pattern length 2. -/
theorem group_span_invariant_counterexample :
    expand_groups_recursive 3
        [("A", [[Tok.plain "B", Tok.plain "C"]]), ("B", [[Tok.plain "b"]])]
        [[Tok.plain "A"]] [[("None", 1)]] =
      some ([[Tok.plain "b", Tok.plain "C"]], [[("B", 1)]]) ∧
    ¬ (sumSpans [("B", 1)] = ([Tok.plain "b", Tok.plain "C"] : List Tok).length) :=
  ⟨by decide, by decide⟩

/-- C1 (amended): provided every group's expansion patterns are non-empty
and contain no further group names, the span-sum invariant holds for
every (pattern, groups) pair after every recursive rewrite step of group
expansion — starting from the default Group sequences — and for every
pair the Group Expander outputs: the spans of the Group sequence sum to
the token count of the corresponding utterance pattern. -/
theorem group_span_invariant (gmap : GroupMap) (hwf : wellFormedGroupMap gmap = true)
    (ps : List (List Tok)) :
    (∀ n : Nat,
      ∀ pr ∈ ((fun st : List (List Tok) × List (List Group) =>
            expand_groups_once gmap st.1 st.2)^[n] (ps, ps.map default_groups_of)).1.zip
          ((fun st : List (List Tok) × List (List Group) =>
            expand_groups_once gmap st.1 st.2)^[n] (ps, ps.map default_groups_of)).2,
        sumSpans pr.2 = pr.1.length) ∧
    (∀ (fuel : Nat) (out : List (List Tok) × List (List Group)),
      expand_groups_recursive fuel gmap ps (ps.map default_groups_of) = some out →
      ∀ pr ∈ out.1.zip out.2, sumSpans pr.2 = pr.1.length) := by
  have hinit : ∀ pr ∈ ps.zip (ps.map default_groups_of), Blocks gmap pr.1 pr.2 := by
    intro pr hpr
    have hzip : ps.zip (ps.map default_groups_of) =
        ps.map (fun p => (p, default_groups_of p)) := by
      have := List.zip_map' (fun a => a) default_groups_of ps
      simpa using this
    rw [hzip] at hpr
    obtain ⟨p, hp, rfl⟩ := List.mem_map.1 hpr
    exact blocks_default gmap p
  constructor
  · intro n pr hpr
    exact sumSpans_of_blocks gmap pr.1 pr.2
      (blocks_iterate gmap hwf n ps (ps.map default_groups_of) hinit pr hpr)
  · intro fuel out hout pr hpr
    exact sumSpans_of_blocks gmap pr.1 pr.2
      (blocks_recursive gmap hwf fuel ps (ps.map default_groups_of) out hinit hout pr hpr)

theorem group_span_invariant_witness :
    sumSpans [("A", 2)] = ([Tok.plain "x", Tok.plain "y"] : List Tok).length := by
  have h := (group_span_invariant [("A", [[Tok.plain "x", Tok.plain "y"]])] (by decide)
      [[Tok.plain "A"]]).2 2 ([[Tok.plain "x", Tok.plain "y"]], [[("A", 2)]]) (by decide)
  exact h ([Tok.plain "x", Tok.plain "y"], [("A", 2)]) (by decide)

theorem shorter_tokens_silently_truncate_witness :
    compute_handled_token_combo [["a"], ["b"], ["c"]] ["A"] none =
      compute_handled_token_combo ([["a"], ["b"], ["c"]].take 1) ["A"] none ∧
    (compute_handled_token_combo [["a"], ["b"], ["c"]] ["A"] none).length = 1 :=
  ⟨(shorter_tokens_silently_truncate [["a"], ["b"], ["c"]] ["A"] none (by decide)).1,
    (shorter_tokens_silently_truncate [["a"], ["b"], ["c"]] ["A"] none (by decide)).2.1⟩

end Putput
